import Mathlib

/-!
Verification of the madam media-asset library core (madam/core.py and
adam/image.py) against its natural-language specification.

The Python code is shallowly embedded: dictionaries become association
lists with lookup/assignment functions matching Python dict semantics
(insertion order preserved, assignment to an existing key keeps its
position), byte streams become a pair of byte list and cursor position,
exceptions become Except / Option, and generators consumed by a caller
become functions returning the produced prefix together with the error
that interrupted them, if any.
-/

namespace Madam

/-- Python dict lookup: d.get(k) as an Option. Association lists keep
insertion order; the first binding for a key is the binding (dictSet
below never creates duplicates). Embeds Python dict indexing. -/
def dictGet {β : Type} (d : List (String × β)) (k : String) : Option β :=
  (d.find? (fun kv => kv.1 == k)).map (fun kv => kv.2)

/-- Python dict assignment d[k] = v: replace the value in place if the key
exists, otherwise append the new binding at the end (insertion order). -/
def dictSet {β : Type} (d : List (String × β)) (k : String) (v : β) : List (String × β) :=
  if d.any (fun kv => kv.1 == k) then
    d.map (fun kv => if kv.1 == k then (k, v) else kv)
  else
    d ++ [(k, v)]

/-- Python dict equality: same keys with equal values, order irrelevant. -/
def pyDictEq {β : Type} [DecidableEq β] (d e : List (String × β)) : Bool :=
  d.all (fun kv => dictGet e kv.1 == some kv.2) &&
  e.all (fun kv => dictGet d kv.1 == some kv.2)

/-- An io.BytesIO-like byte stream: the buffer plus a cursor position.
io.BytesIO(data) copies data, so a stream owns its buffer. -/
structure ByteStream where
  data : List Nat
  pos : Nat
deriving DecidableEq, Repr

/-- stream.read() with no size argument: everything from the cursor to the
end, leaving the cursor at the end of the buffer. -/
def ByteStream.readAll (s : ByteStream) : List Nat × ByteStream :=
  (s.data.drop s.pos, ⟨s.data, s.data.length⟩)

/-- stream.seek(0): rewind the cursor to the start of the buffer. -/
def ByteStream.seek0 (s : ByteStream) : ByteStream :=
  ⟨s.data, 0⟩

/-- madam.core.Asset: essence bytes, a namespaced metadata mapping
(namespace name to inner key/value dict), and a MIME type. V is the type
of inner metadata values. Embeds the instance dict of the Python object,
whose keys are exactly essence_data, metadata and mime_type. -/
structure Asset (V : Type) where
  essence_data : List Nat
  metadata : List (String × List (String × V))
  mime_type : Option String
deriving Repr, DecidableEq

/-- Asset() constructor: empty essence, metadata with the single empty
madam namespace, no MIME type. -/
def Asset.new {V : Type} : Asset V :=
  { essence_data := []
    metadata := [("madam", [])]
    mime_type := none }

/-- The essence property getter: a fresh BytesIO over the stored essence
bytes, cursor at 0, on every access. -/
def Asset.essence {V : Type} (a : Asset V) : ByteStream :=
  ⟨a.essence_data, 0⟩

/-- The essence property setter: store the remaining contents of the given
stream as the essence bytes (value.read()). -/
def Asset.setEssence {V : Type} (a : Asset V) (value : ByteStream) : Asset V × ByteStream :=
  let r := value.readAll
  ({ a with essence_data := r.1 }, r.2)

/-- A Python object as seen by Asset.__eq__: either an Asset or an object
of some other class (represented by a tag). -/
inductive PyObject (V : Type) where
  | asset (a : Asset V)
  | nonAsset (tag : String)

/-- Value equality of the instance dicts of two assets: essence bytes,
metadata mapping and MIME type all equal. metadata equality is Python
dict equality at both nesting levels. -/
def Asset.dictEq {V : Type} [DecidableEq V] (a b : Asset V) : Bool :=
  a.essence_data == b.essence_data &&
  (a.metadata.all (fun kv => match dictGet b.metadata kv.1 with
      | some e => pyDictEq kv.2 e
      | none => false) &&
   b.metadata.all (fun kv => match dictGet a.metadata kv.1 with
      | some e => pyDictEq kv.2 e
      | none => false)) &&
  a.mime_type == b.mime_type

/-- Asset.__eq__: isinstance check, then instance-dict equality. -/
def Asset.pyEq {V : Type} [DecidableEq V] (a : Asset V) (other : PyObject V) : Bool :=
  match other with
  | .asset b => Asset.dictEq a b
  | .nonAsset _ => false

/-- A content processor as read() uses it: a can_read probe over the input
stream and a read function building the base Asset. -/
structure Processor (V : Type) where
  can_read : ByteStream → Bool
  read : ByteStream → Asset V

/-- A metadata processor entry of metadata_processors_by_format: the
format name (the dict key) paired with the extraction function. Raising
an exception while extracting is embedded as returning none. -/
def MetadataEntry (V : Type) : Type :=
  String × (ByteStream → Option (List (String × V)))

/-- The metadata augmentation loop of read(): for every registered
metadata processor, in registration order, rewind the stream and attempt
extraction; on success store the result under the format name, on an
exception leave the asset metadata untouched. -/
def applyMetadataProcessors {V : Type} (mps : List (MetadataEntry V))
    (file : ByteStream) (a : Asset V) : Asset V :=
  mps.foldl (fun acc p =>
    match p.2 file.seek0 with
    | some md => { acc with metadata := dictSet acc.metadata p.1 md }
    | none => acc) a

/-- madam.core.read: select the first registered processor whose can_read
accepts the stream; if none does, raise UnsupportedFormatError (embedded
as Except.error); otherwise build the base asset with the winning
processor and run every metadata processor over the stream. -/
def read {V : Type} (procs : List (Processor V)) (mps : List (MetadataEntry V))
    (file : ByteStream) : Except Unit (Asset V) :=
  match procs.find? (fun p => p.can_read file) with
  | none => Except.error ()
  | some p => Except.ok (applyMetadataProcessors mps file (p.read file))

/-- InMemoryStorage state: the ordered list of stored assets. -/
abbrev InMemoryStorage (V : Type) : Type :=
  List (Asset V)

/-- InMemoryStorage.add: append. -/
def InMemoryStorage.add {V : Type} (s : InMemoryStorage V) (a : Asset V) : InMemoryStorage V :=
  s ++ [a]

/-- list.remove as Python defines it: delete the first element equal to
the argument; raise ValueError when none is equal. Equality between
stored assets uses Asset.__eq__. -/
def InMemoryStorage.remove {V : Type} [DecidableEq V] (s : InMemoryStorage V)
    (a : Asset V) : Except String (InMemoryStorage V) :=
  match s with
  | [] => Except.error "list.remove(x): x not in list"
  | b :: rest =>
    if Asset.dictEq b a then Except.ok rest
    else (InMemoryStorage.remove rest a).map (fun r => b :: r)

/-- InMemoryStorage.__contains__: membership by Asset equality. -/
def InMemoryStorage.contains {V : Type} [DecidableEq V] (s : InMemoryStorage V)
    (a : Asset V) : Bool :=
  s.any (fun b => Asset.dictEq b a)

/-- InMemoryStorage.get as written in the source: for every stored asset
and for every criterion key/value pair, if the madam namespace maps the
key to the value (dict get with default None embedded as Option
comparison) the asset is appended to the result list. Criterion values
are Option V so that a Python None criterion is representable. -/
def InMemoryStorage.get {V : Type} [DecidableEq V] (s : InMemoryStorage V)
    (criteria : List (String × Option V)) : List (Asset V) :=
  s.foldl (fun found a =>
    let madam_metadata := (dictGet a.metadata "madam").getD []
    criteria.foldl (fun ms kv =>
      if dictGet madam_metadata kv.1 == kv.2 then ms ++ [a] else ms) found) []

/-- FileStorage state over an abstract asset type: the persisted shelf as
an ordered list of key/value entries (keys are the decimal identifiers,
stored as naturals) together with the in-process identifier sequence. -/
structure FileStorage (α : Type) where
  shelf : List (Nat × α)
  nextId : Nat
deriving Repr, DecidableEq

/-- FileStorage.__init__ over a preserved shelf: resume the identifier
sequence at max(existing keys) + 1, or at 1 when the shelf is empty. -/
def initStorage {α : Type} (shelf : List (Nat × α)) : FileStorage α :=
  { shelf := shelf
    nextId := (shelf.foldl (fun m kv => max m kv.1) 0) + 1 }

/-- Shelf assignment, a dict write keyed by identifier: replace in place
when the key exists, append otherwise. -/
def shelfSet {α : Type} (shelf : List (Nat × α)) (k : Nat) (v : α) : List (Nat × α) :=
  if shelf.any (fun kv => kv.1 == k) then
    shelf.map (fun kv => if kv.1 == k then (k, v) else kv)
  else
    shelf ++ [(k, v)]

/-- FileStorage.add: draw the next identifier from the sequence and
persist the asset under it. -/
def FileStorage.add {α : Type} (s : FileStorage α) (a : α) : FileStorage α :=
  { shelf := shelfSet s.shelf s.nextId a, nextId := s.nextId + 1 }

/-- Adding a list of assets in order. -/
def FileStorage.addAll {α : Type} (s : FileStorage α) (as : List α) : FileStorage α :=
  as.foldl FileStorage.add s

/-- The scan inside FileStorage.remove: delete the first shelf entry
whose value equals the asset; none when no entry matches. -/
def removeFirstByValue {α : Type} [DecidableEq α] (shelf : List (Nat × α))
    (a : α) : Option (List (Nat × α)) :=
  match shelf with
  | [] => none
  | kv :: rest =>
    if kv.2 == a then some rest
    else (removeFirstByValue rest a).map (fun r => kv :: r)

/-- FileStorage.remove (continued): wrap the scan, raising on no match. -/
def FileStorage.remove {α : Type} [DecidableEq α] (s : FileStorage α)
    (a : α) : Except String (FileStorage α) :=
  match removeFirstByValue s.shelf a with
  | some shelf => Except.ok { s with shelf := shelf }
  | none => Except.error "Unable to remove unknown asset"

/-- FileStorage.__contains__: membership among the persisted values. -/
def FileStorage.containsAsset {α : Type} [DecidableEq α] (s : FileStorage α)
    (a : α) : Bool :=
  s.shelf.any (fun kv => kv.2 == a)

/-- Folding one asset through the pipeline operators in insertion order.
An operator that raises is embedded as returning Except.error. -/
def foldOperators {α ε : Type} (ops : List (α → Except ε α)) (a : α) : Except ε α :=
  match ops with
  | [] => Except.ok a
  | op :: rest =>
    match op a with
    | Except.ok b => foldOperators rest b
    | Except.error e => Except.error e

/-- Pipeline.process as observed by a caller that consumes the generator:
for each input asset in order, fold it through the operators; the outputs
produced before the first raising input, paired with that error when one
occurs. An input after the raising one is never folded. -/
def Pipeline.process {α ε : Type} (ops : List (α → Except ε α))
    (assets : List α) : List α × Option ε :=
  match assets with
  | [] => ([], none)
  | a :: rest =>
    match foldOperators ops a with
    | Except.ok b =>
      let r := Pipeline.process ops rest
      (b :: r.1, r.2)
    | Except.error e => ([], some e)

/-- adam.image.ResizeMode. -/
inductive ResizeMode where
  | EXACT
  | FIT
  | FILL
deriving DecidableEq, Repr

/-- Python round(): round half to even (banker's rounding). -/
def pyRound (q : ℚ) : ℤ :=
  if q - ⌊q⌋ < 1 / 2 then ⌊q⌋
  else if q - ⌊q⌋ > 1 / 2 then ⌊q⌋ + 1
  else if ⌊q⌋ % 2 = 0 then ⌊q⌋ else ⌊q⌋ + 1

/-- The dimension arithmetic of PillowProcessor.resize: deltas are target
minus source per axis; for FIT the width ratio is chosen when the width
delta is smaller than the height delta (for FILL when it is larger),
otherwise the height ratio; the source dimensions are scaled by the
chosen factor and rounded; EXACT uses the target verbatim. -/
def resizeDims (srcW srcH tgtW tgtH : ℤ) (mode : ResizeMode) : ℤ × ℤ :=
  let width_delta := tgtW - srcW
  let height_delta := tgtH - srcH
  if mode = ResizeMode.FIT ∨ mode = ResizeMode.FILL then
    let resize_factor : ℚ :=
      if (mode = ResizeMode.FIT ∧ width_delta < height_delta) ∨
         (mode = ResizeMode.FILL ∧ width_delta > height_delta) then
        (tgtW : ℚ) / (srcW : ℚ)
      else
        (tgtH : ℚ) / (srcH : ℚ)
    (pyRound (resize_factor * srcW), pyRound (resize_factor * srcH))
  else
    (tgtW, tgtH)

/-! Section: Helper lemmas -/

theorem read_of_no_match {V : Type} {procs : List (Processor V)}
    {mps : List (MetadataEntry V)} {file : ByteStream}
    (h : ∀ q ∈ procs, q.can_read file = false) :
    read procs mps file = Except.error () := by
  unfold read
  have : procs.find? (fun p => p.can_read file) = none := by
    rw [List.find?_eq_none]
    intro x hx
    simp [h x hx]
  rw [this]

theorem read_of_first_match {V : Type} {l1 l2 : List (Processor V)} {p : Processor V}
    {mps : List (MetadataEntry V)} {file : ByteStream}
    (h1 : ∀ q ∈ l1, q.can_read file = false) (hp : p.can_read file = true) :
    read (l1 ++ p :: l2) mps file =
      Except.ok (applyMetadataProcessors mps file (p.read file)) := by
  unfold read
  have hnone : l1.find? (fun q => q.can_read file) = none := by
    rw [List.find?_eq_none]
    intro x hx
    simp [h1 x hx]
  have hfind : List.find? (fun q => q.can_read file) (p :: l2) = some p :=
    List.find?_cons_of_pos l2 (by simpa using hp)
  rw [List.find?_append, hnone, hfind]
  rfl

/-! Section: C1 -/

/-- C1: read selects the first registered processor, in registration
order, whose can_read accepts the stream, and returns the asset produced
by that processor's read (then augmented with metadata); when no
registered processor accepts the stream, read raises
UnsupportedFormatError. -/
theorem read_dispatch_first_match {V : Type} (procs l1 l2 : List (Processor V))
    (p : Processor V) (mps : List (MetadataEntry V)) (file : ByteStream) :
    ((∀ q ∈ procs, q.can_read file = false) →
      read procs mps file = Except.error ()) ∧
    (procs = l1 ++ p :: l2 → (∀ q ∈ l1, q.can_read file = false) →
      p.can_read file = true →
      read procs mps file =
        Except.ok (applyMetadataProcessors mps file (p.read file))) := by
  constructor
  · intro h
    exact read_of_no_match h
  · intro hprocs h1 hp
    subst hprocs
    exact read_of_first_match h1 hp

/-- Concrete processors for witnesses: one that rejects everything and
one that accepts everything and returns the empty asset. -/
def rejectAll : Processor Nat :=
  { can_read := fun _ => false, read := fun _ => Asset.new }

/-- A processor accepting every stream, tagging the asset MIME type. -/
def acceptAll : Processor Nat :=
  { can_read := fun _ => true
    read := fun _ => { Asset.new with mime_type := some "image/jpeg" } }

/-- Witness for C1: with the rejecting processor registered first and the
accepting one second, read returns the accepting processor's asset; with
only the rejecting processor registered, read fails. -/
theorem read_dispatch_first_match_witness :
    read [rejectAll] ([] : List (MetadataEntry Nat)) ⟨[7], 0⟩ = Except.error () ∧
    read [rejectAll, acceptAll] ([] : List (MetadataEntry Nat)) ⟨[7], 0⟩ =
      Except.ok (applyMetadataProcessors [] ⟨[7], 0⟩ (acceptAll.read ⟨[7], 0⟩)) := by
  constructor
  · exact (read_dispatch_first_match [rejectAll] [] [] rejectAll [] ⟨[7], 0⟩).1
      (by intro q hq; simp only [List.mem_singleton] at hq; subst hq; rfl)
  · exact (read_dispatch_first_match [rejectAll, acceptAll] [rejectAll] [] acceptAll
      [] ⟨[7], 0⟩).2 rfl
      (by intro q hq; simp only [List.mem_singleton] at hq; subst hq; rfl) rfl

/-! Section: C2 -/

theorem le_foldl_max (l : List Nat) (m k : Nat) (h : k ∈ l ∨ k ≤ m) :
    k ≤ l.foldl max m := by
  induction l generalizing m with
  | nil =>
    rcases h with h | h
    · cases h
    · exact h
  | cons x xs ih =>
    rcases h with h | h
    · rcases List.mem_cons.mp h with h | h
      · exact ih (max m x) (Or.inr (by simp [h]))
      · exact ih (max m x) (Or.inl h)
    · exact ih (max m x) (Or.inr (le_trans h (le_max_left m x)))

theorem shelfSet_of_not_mem {α : Type} (shelf : List (Nat × α)) (k : Nat) (v : α)
    (h : ∀ kv ∈ shelf, kv.1 ≠ k) : shelfSet shelf k v = shelf ++ [(k, v)] := by
  unfold shelfSet
  rw [if_neg]
  intro hc
  rcases List.any_eq_true.mp hc with ⟨kv, hkv, hk⟩
  exact h kv hkv (by simpa using hk)

theorem addAll_fresh_keys {α : Type} (as : List α) (s : FileStorage α) (n : Nat)
    (hkeys : s.shelf.map Prod.fst = List.range' 1 n) (hnext : s.nextId = n + 1) :
    (s.addAll as).shelf.map Prod.fst = List.range' 1 (n + as.length) ∧
    (s.addAll as).nextId = n + as.length + 1 := by
  induction as generalizing s n with
  | nil =>
    simpa [FileStorage.addAll, hnext] using hkeys
  | cons a rest ih =>
    have hfresh : ∀ kv ∈ s.shelf, kv.1 ≠ s.nextId := by
      intro kv hkv
      have : kv.1 ∈ s.shelf.map Prod.fst := List.mem_map_of_mem Prod.fst hkv
      rw [hkeys] at this
      have := (List.mem_range'_1.mp this).2
      omega
    have hadd : (s.add a).shelf = s.shelf ++ [(s.nextId, a)] := by
      unfold FileStorage.add
      exact shelfSet_of_not_mem s.shelf s.nextId a hfresh
    have hkeys' : (s.add a).shelf.map Prod.fst = List.range' 1 (n + 1) := by
      rw [hadd, List.map_append, hkeys, hnext, List.range'_1_concat]
      simp [Nat.add_comm]
    have hnext' : (s.add a).nextId = (n + 1) + 1 := by
      unfold FileStorage.add
      simp [hnext]
    have := ih (s.add a) (n + 1) hkeys' hnext'
    have hlen : n + 1 + rest.length = n + (rest.length + 1) := by omega
    constructor
    · rw [show s.addAll (a :: rest) = (s.add a).addAll rest from rfl]
      rw [this.1, List.length_cons, hlen]
    · rw [show s.addAll (a :: rest) = (s.add a).addAll rest from rfl]
      rw [this.2, List.length_cons]
      omega

/-- C2 (amended): adding N assets to a fresh File-backed store assigns
identifiers 1..N in order; within one store instance, add always assigns
the current sequence value and increments it, so identifiers strictly
increase and are never reused by that instance; re-initializing over a
preserved directory resumes the sequence at max(surviving keys) + 1,
which is strictly greater than every identifier still present (an
identifier of a removed asset, however, may be reused after a restart). -/
theorem filestorage_id_monotonic {α : Type} (as : List α) (a : α)
    (shelf : List (Nat × α)) (s : FileStorage α) (k : Nat) :
    (((initStorage ([] : List (Nat × α))).addAll as).shelf.map Prod.fst
        = List.range' 1 as.length) ∧
    (((initStorage ([] : List (Nat × α))).addAll as).nextId = as.length + 1) ∧
    (k ∈ (initStorage shelf).shelf.map Prod.fst → k < (initStorage shelf).nextId) ∧
    ((∀ j ∈ s.shelf.map Prod.fst, j < s.nextId) →
      (s.add a).shelf.map Prod.fst = s.shelf.map Prod.fst ++ [s.nextId] ∧
      (s.add a).nextId = s.nextId + 1) := by
  have hfresh := addAll_fresh_keys as (initStorage ([] : List (Nat × α))) 0
    (by simp [initStorage]) (by simp [initStorage])
  refine ⟨by simpa using hfresh.1, by simpa using hfresh.2, ?_, ?_⟩
  · intro hk
    have hmem : k ∈ shelf.map Prod.fst := hk
    rcases List.mem_map.mp hmem with ⟨kv, hkv, hkveq⟩
    have : k ≤ shelf.foldl (fun m kv => max m kv.1) 0 := by
      have := le_foldl_max (shelf.map Prod.fst) 0 k (Or.inl hmem)
      simpa [List.foldl_map] using this
    simp only [initStorage]
    omega
  · intro hinv
    have hfresh2 : ∀ kv ∈ s.shelf, kv.1 ≠ s.nextId := by
      intro kv hkv
      have := hinv kv.1 (List.mem_map_of_mem Prod.fst hkv)
      omega
    constructor
    · unfold FileStorage.add
      rw [shelfSet_of_not_mem s.shelf s.nextId a hfresh2, List.map_append]
      rfl
    · rfl

/-- Counterexample to C2 as stated: on a fresh store, add assigns
identifier 1; removing that asset leaves the preserved directory empty;
re-initializing over it and adding again assigns identifier 1 a second
time, so the next add after a restart is not strictly greater than every
identifier ever assigned when the maximal asset was removed. -/
theorem filestorage_id_reuse_counterexample :
    FileStorage.add (initStorage ([] : List (Nat × Nat))) 5 =
      { shelf := [(1, 5)], nextId := 2 } ∧
    FileStorage.remove (FileStorage.add (initStorage ([] : List (Nat × Nat))) 5) 5 =
      Except.ok { shelf := [], nextId := 2 } ∧
    FileStorage.add (initStorage ([] : List (Nat × Nat))) 7 =
      { shelf := [(1, 7)], nextId := 2 } :=
  ⟨rfl, rfl, rfl⟩

/-- Witness for C2 (amended): concrete instantiation with two assets. -/
theorem filestorage_id_monotonic_witness :
    (((initStorage ([] : List (Nat × Nat))).addAll [10, 20]).shelf.map Prod.fst
        = List.range' 1 2) ∧
    (2 < (initStorage [(1, (10 : Nat)), (2, 20)]).nextId) ∧
    ((FileStorage.mk [(1, (10 : Nat)), (2, 20)] 3).add 30).shelf.map Prod.fst
        = [1, 2] ++ [3] := by
  refine ⟨?_, ?_, ?_⟩
  · exact (filestorage_id_monotonic [10, 20] 0 [] (initStorage []) 0).1
  · exact (filestorage_id_monotonic [] 0 [(1, 10), (2, 20)]
      (initStorage []) 2).2.2.1 (by decide)
  · have h := (filestorage_id_monotonic ([] : List Nat) 30 []
      (FileStorage.mk [(1, 10), (2, 20)] 3) 0).2.2.2 (by decide)
    simpa using h.1

/-! Section: C3 -/

/-- A stored asset whose internal madam namespace maps x to 1 and y to 2. -/
def assetXY : Asset Nat :=
  { essence_data := []
    metadata := [("madam", [("x", 1), ("y", 2)])]
    mime_type := none }

/-- C3 is a code bug: get appends an asset once per matching criterion
pair instead of once when all pairs match. With both criteria matching,
the single stored asset is returned twice; with only one of two criteria
matching, it is still returned once although the claim requires the
empty result. -/
theorem inmemory_get_bug :
    InMemoryStorage.get [assetXY] [("x", some 1), ("y", some 2)] = [assetXY, assetXY] ∧
    InMemoryStorage.get [assetXY] [("x", some 1), ("y", some 99)] = [assetXY] :=
  ⟨rfl, rfl⟩

/-! Section: C10 -/

/-- C10: removing an asset absent from the in-memory storage raises
ValueError and the stored sequence is unchanged (the error result carries
no modified storage); removing a present asset deletes exactly the first
stored element equal to it, leaving every other element in place. -/
theorem inmemory_remove_spec {V : Type} [DecidableEq V]
    (s : InMemoryStorage V) (a : Asset V) :
    ((∀ b ∈ s, Asset.dictEq b a = false) →
      InMemoryStorage.remove s a = Except.error "list.remove(x): x not in list") ∧
    (∀ l1 b l2, s = l1 ++ b :: l2 → (∀ c ∈ l1, Asset.dictEq c a = false) →
      Asset.dictEq b a = true →
      InMemoryStorage.remove s a = Except.ok (l1 ++ l2)) := by
  constructor
  · intro h
    induction s with
    | nil => rfl
    | cons x xs ih =>
      unfold InMemoryStorage.remove
      rw [if_neg (by simp [h x (List.mem_cons_self x xs)])]
      rw [ih (fun b hb => h b (List.mem_cons_of_mem x hb))]
      rfl
  · intro l1 b l2 hs h1 hb
    subst hs
    induction l1 with
    | nil =>
      simp only [List.nil_append]
      unfold InMemoryStorage.remove
      rw [if_pos hb]
    | cons c cs ih =>
      simp only [List.cons_append]
      unfold InMemoryStorage.remove
      rw [if_neg (by simp [h1 c (List.mem_cons_self c cs)])]
      rw [ih (fun d hd => h1 d (List.mem_cons_of_mem c hd))]
      rfl

/-- Two distinct concrete assets for storage witnesses. -/
def assetOne : Asset Nat :=
  { essence_data := [1], metadata := [("madam", [])], mime_type := none }

/-- A second concrete asset, different essence bytes. -/
def assetTwo : Asset Nat :=
  { essence_data := [2], metadata := [("madam", [])], mime_type := none }

/-- Witness for C10: removing an absent asset errors; removing a present
one deletes its first occurrence. -/
theorem inmemory_remove_spec_witness :
    InMemoryStorage.remove [assetOne] assetTwo =
      Except.error "list.remove(x): x not in list" ∧
    InMemoryStorage.remove [assetOne, assetTwo, assetTwo] assetTwo =
      Except.ok [assetOne, assetTwo] := by
  constructor
  · exact (inmemory_remove_spec [assetOne] assetTwo).1 (by decide)
  · exact (inmemory_remove_spec [assetOne, assetTwo, assetTwo] assetTwo).2
      [assetOne] assetTwo [assetTwo] rfl (by decide) (by decide)

/-! Section: C7 -/

theorem removeFirstByValue_none {α : Type} [DecidableEq α]
    (shelf : List (Nat × α)) (a : α) (h : ∀ kv ∈ shelf, kv.2 ≠ a) :
    removeFirstByValue shelf a = none := by
  induction shelf with
  | nil => rfl
  | cons kv rest ih =>
    unfold removeFirstByValue
    rw [if_neg (by simp [h kv (List.mem_cons_self kv rest)])]
    rw [ih (fun e he => h e (List.mem_cons_of_mem kv he))]
    rfl

theorem removeFirstByValue_some {α : Type} [DecidableEq α]
    (l1 l2 : List (Nat × α)) (kv : Nat × α) (a : α)
    (h1 : ∀ e ∈ l1, e.2 ≠ a) (hkv : kv.2 = a) :
    removeFirstByValue (l1 ++ kv :: l2) a = some (l1 ++ l2) := by
  induction l1 with
  | nil =>
    simp only [List.nil_append]
    unfold removeFirstByValue
    rw [if_pos (by simp [hkv])]
  | cons e es ih =>
    simp only [List.cons_append]
    unfold removeFirstByValue
    rw [if_neg (by simp [h1 e (List.mem_cons_self e es)])]
    rw [ih (fun d hd => h1 d (List.mem_cons_of_mem e hd))]
    rfl

/-- C7: FileStorage.remove deletes the entry holding the first persisted
value equal to the given asset; when no stored value equals it, remove
raises a descriptive not-found ValueError and the shelf contents are
unchanged (no modified store is produced). -/
theorem filestorage_remove_spec {α : Type} [DecidableEq α]
    (s : FileStorage α) (a : α) :
    ((∀ kv ∈ s.shelf, kv.2 ≠ a) →
      FileStorage.remove s a = Except.error "Unable to remove unknown asset") ∧
    (∀ l1 kv l2, s.shelf = l1 ++ kv :: l2 → (∀ e ∈ l1, e.2 ≠ a) → kv.2 = a →
      FileStorage.remove s a = Except.ok { shelf := l1 ++ l2, nextId := s.nextId }) := by
  constructor
  · intro h
    unfold FileStorage.remove
    rw [removeFirstByValue_none s.shelf a h]
  · intro l1 kv l2 hs h1 hkv
    unfold FileStorage.remove
    rw [hs, removeFirstByValue_some l1 l2 kv a h1 hkv]

/-- Witness for C7: a concrete shelf with two entries. -/
theorem filestorage_remove_spec_witness :
    FileStorage.remove (FileStorage.mk [(1, (10 : Nat)), (2, 20)] 3) 99 =
      Except.error "Unable to remove unknown asset" ∧
    FileStorage.remove (FileStorage.mk [(1, (10 : Nat)), (2, 20)] 3) 20 =
      Except.ok { shelf := [(1, 10)], nextId := 3 } := by
  constructor
  · exact (filestorage_remove_spec (FileStorage.mk [(1, 10), (2, 20)] 3) 99).1 (by decide)
  · exact (filestorage_remove_spec (FileStorage.mk [(1, 10), (2, 20)] 3) 20).2
      [(1, 10)] (2, 20) [] rfl (by decide) rfl

/-! Section: C6 -/

/-- C6: consuming the generator returned by Pipeline.process yields
exactly one output per input, in input order, each output being the fold
of that input through the operators in insertion order; and because
results are produced on demand, when folding some input raises, exactly
the outputs for the preceding inputs are observable and no later input is
ever processed (the result is independent of everything after the
raising input). -/
theorem pipeline_process_spec {α ε : Type} (ops : List (α → Except ε α))
    (f : α → α) (assets pre post : List α) (bad : α) (e : ε) :
    ((∀ a ∈ assets, foldOperators ops a = Except.ok (f a)) →
      Pipeline.process ops assets = (assets.map f, none)) ∧
    ((∀ a ∈ pre, foldOperators ops a = Except.ok (f a)) →
      foldOperators ops bad = Except.error e →
      Pipeline.process ops (pre ++ bad :: post) = (pre.map f, some e)) := by
  constructor
  · intro h
    induction assets with
    | nil => rfl
    | cons a rest ih =>
      unfold Pipeline.process
      rw [h a (List.mem_cons_self a rest)]
      rw [ih (fun b hb => h b (List.mem_cons_of_mem a hb))]
      rfl
  · intro hpre hbad
    induction pre with
    | nil =>
      simp only [List.nil_append]
      unfold Pipeline.process
      rw [hbad]
      rfl
    | cons a rest ih =>
      simp only [List.cons_append]
      unfold Pipeline.process
      rw [hpre a (List.mem_cons_self a rest)]
      rw [ih (fun b hb => hpre b (List.mem_cons_of_mem a hb))]
      rfl

/-- A concrete operator for the pipeline witness: raises on input 2,
increments otherwise. -/
def failOnTwo : Nat → Except Nat Nat :=
  fun n => if n == 2 then Except.error 0 else Except.ok (n + 1)

/-- Witness for C6: an all-success run maps every input through the
fold, and a run whose third input raises yields exactly the first two
outputs before the error, never touching the later inputs. -/
theorem pipeline_process_spec_witness :
    Pipeline.process [failOnTwo] [0, 1, 3] = ([1, 2, 4], none) ∧
    Pipeline.process [failOnTwo] [0, 1, 2, 3, 4] = ([1, 2], some 0) := by
  constructor
  · exact (pipeline_process_spec [failOnTwo] (fun n => n + 1)
      [0, 1, 3] [] [] 0 0).1 (by intro a ha; fin_cases ha <;> rfl)
  · exact (pipeline_process_spec [failOnTwo] (fun n => n + 1)
      [] [0, 1] [3, 4] 2 0).2 (by intro a ha; fin_cases ha <;> rfl) rfl

/-! Section: C9 -/

/-- C9: each access of the essence property is a fresh cursor at position
0 over the stored essence bytes; reading it in full yields exactly the
stored bytes; reading a stream never modifies its underlying buffer (a
BytesIO owns a copy, so the stored bytes are untouched); and even after
a full read has exhausted one returned stream, the underlying buffer and
hence any later access still carry the stored bytes. -/
theorem essence_fresh_stream {V : Type} (a : Asset V) :
    Asset.essence a = ⟨a.essence_data, 0⟩ ∧
    (Asset.essence a).readAll.1 = a.essence_data ∧
    (∀ s : ByteStream, (s.readAll.2).data = s.data) ∧
    ((Asset.essence a).readAll.2).readAll.2.data = a.essence_data :=
  ⟨rfl, by simp [Asset.essence, ByteStream.readAll], fun _ => rfl, rfl⟩

/-! Section: C5 -/

theorem find?_map_replace {β : Type} (rest : List (String × β)) (k k' : String)
    (v : β) (hkk : k' ≠ k) :
    (rest.map (fun kv => if kv.1 == k then (k, v) else kv)).find?
        (fun kv => kv.1 == k') =
      rest.find? (fun kv => kv.1 == k') := by
  induction rest with
  | nil => rfl
  | cons kv tl ih =>
    rw [List.map_cons]
    by_cases hk : kv.1 = k
    · have hhd : (if kv.1 == k then (k, v) else kv) = (k, v) := by simp [hk]
      rw [hhd]
      rw [List.find?_cons_of_neg _ (by simp [Ne.symm hkk]),
          List.find?_cons_of_neg _ (by simp [hk, Ne.symm hkk])]
      exact ih
    · have hhd : (if kv.1 == k then (k, v) else kv) = kv := by simp [hk]
      rw [hhd]
      by_cases hk' : kv.1 = k'
      · rw [List.find?_cons_of_pos _ (by simpa using hk'),
            List.find?_cons_of_pos _ (by simpa using hk')]
      · rw [List.find?_cons_of_neg _ (by simpa using hk'),
            List.find?_cons_of_neg _ (by simpa using hk')]
        exact ih

theorem find?_map_replace_self {β : Type} (rest : List (String × β)) (k : String)
    (v : β) (h : rest.any (fun kv => kv.1 == k) = true) :
    (rest.map (fun kv => if kv.1 == k then (k, v) else kv)).find?
        (fun kv => kv.1 == k) = some (k, v) := by
  induction rest with
  | nil => cases h
  | cons kv tl ih =>
    rw [List.map_cons]
    by_cases hk : kv.1 = k
    · have hhd : (if kv.1 == k then (k, v) else kv) = (k, v) := by simp [hk]
      rw [hhd]
      rw [List.find?_cons_of_pos _ (by simp)]
    · have hhd : (if kv.1 == k then (k, v) else kv) = kv := by simp [hk]
      rw [hhd]
      rw [List.find?_cons_of_neg _ (by simpa using hk)]
      refine ih ?_
      rcases List.any_eq_true.mp h with ⟨e, he, hek⟩
      rcases List.mem_cons.mp he with he | he
      · exact absurd (by simpa [he] using hek) hk
      · exact List.any_eq_true.mpr ⟨e, he, hek⟩

theorem dictGet_dictSet {β : Type} (d : List (String × β)) (k k' : String) (v : β) :
    dictGet (dictSet d k v) k' = if k' = k then some v else dictGet d k' := by
  unfold dictSet
  by_cases hany : d.any (fun kv => kv.1 == k) = true
  · rw [if_pos hany]
    by_cases hk : k' = k
    · subst hk
      unfold dictGet
      rw [find?_map_replace_self d k' v hany]
      simp
    · unfold dictGet
      rw [find?_map_replace d k k' v hk, if_neg hk]
  · rw [if_neg hany]
    unfold dictGet
    rw [List.find?_append]
    have hnone : d.find? (fun kv => kv.1 == k) = none := by
      rw [List.find?_eq_none]
      intro kv hkv
      intro hc
      exact hany (List.any_eq_true.mpr ⟨kv, hkv, hc⟩)
    by_cases hk : k' = k
    · subst hk
      rw [hnone]
      simp
    · have : ([(k, v)].find? (fun kv => kv.1 == k')) = none := by
        rw [List.find?_eq_none]
        intro kv hkv
        simp only [List.mem_singleton] at hkv
        subst hkv
        simp [Ne.symm hk]
      rw [this, if_neg hk, Option.or_none]

theorem applyMeta_get_notset {V : Type} (mps : List (MetadataEntry V))
    (file : ByteStream) (a : Asset V) (fmt : String)
    (h : ∀ p ∈ mps, p.1 = fmt → p.2 file.seek0 = none) :
    dictGet (applyMetadataProcessors mps file a).metadata fmt =
      dictGet a.metadata fmt := by
  induction mps generalizing a with
  | nil => rfl
  | cons p rest ih =>
    have hstep : applyMetadataProcessors (p :: rest) file a =
        applyMetadataProcessors rest file
          (match p.2 file.seek0 with
           | some md => { a with metadata := dictSet a.metadata p.1 md }
           | none => a) := rfl
    rw [hstep]
    cases hm : p.2 file.seek0 with
    | none =>
      exact ih a (fun q hq => h q (List.mem_cons_of_mem p hq))
    | some md =>
      have hne : p.1 ≠ fmt := by
        intro hc
        rw [h p (List.mem_cons_self p rest) hc] at hm
        cases hm
      rw [ih _ (fun q hq => h q (List.mem_cons_of_mem p hq))]
      dsimp only
      simp only [dictGet_dictSet]
      rw [if_neg (Ne.symm hne)]

theorem applyMeta_get_success {V : Type} (mps : List (MetadataEntry V))
    (file : ByteStream) (a : Asset V) (fmt : String)
    (mp : ByteStream → Option (List (String × V))) (md : List (String × V))
    (hnd : (mps.map Prod.fst).Nodup) (hmem : (fmt, mp) ∈ mps)
    (hmp : mp file.seek0 = some md) :
    dictGet (applyMetadataProcessors mps file a).metadata fmt = some md := by
  induction mps generalizing a with
  | nil => cases hmem
  | cons p rest ih =>
    have hstep : applyMetadataProcessors (p :: rest) file a =
        applyMetadataProcessors rest file
          (match p.2 file.seek0 with
           | some md => { a with metadata := dictSet a.metadata p.1 md }
           | none => a) := rfl
    rw [hstep]
    rw [List.map_cons, List.nodup_cons] at hnd
    rcases List.mem_cons.mp hmem with hmem | hmem
    · have hp2 : p.2 file.seek0 = some md := by rw [← hmem]; exact hmp
      have hp1 : p.1 = fmt := by rw [← hmem]
      rw [hp2]
      have hrest : ∀ q ∈ rest, q.1 = fmt → q.2 file.seek0 = none := by
        intro q hq hc
        refine absurd ?_ hnd.1
        rw [hp1, ← hc]
        exact List.mem_map_of_mem Prod.fst hq
      rw [applyMeta_get_notset rest file _ fmt hrest]
      dsimp only
      simp [hp1, dictGet_dictSet]
    · exact ih _ hnd.2 hmem

/-- C5: when read has selected a processor, a metadata processor that
raises while extracting its format never aborts the call: read still
returns an asset; the failing processor's namespace is absent from the
asset metadata (given that the base asset did not itself carry that
namespace); and every other metadata processor's successfully extracted
namespace is present with its extracted mapping. -/
theorem read_metadata_failure_isolated {V : Type}
    (procs l1 l2 : List (Processor V)) (p : Processor V)
    (mps : List (MetadataEntry V)) (file : ByteStream) (fmt : String)
    (mp : ByteStream → Option (List (String × V)))
    (hprocs : procs = l1 ++ p :: l2) (hl1 : ∀ q ∈ l1, q.can_read file = false)
    (hp : p.can_read file = true)
    (hnd : (mps.map Prod.fst).Nodup)
    (hmem : (fmt, mp) ∈ mps) (hfail : mp file.seek0 = none)
    (hbase : dictGet (p.read file).metadata fmt = none) :
    ∃ a, read procs mps file = Except.ok a ∧
      dictGet a.metadata fmt = none ∧
      (∀ fmt2 mp2 md2, (fmt2, mp2) ∈ mps → mp2 file.seek0 = some md2 →
        dictGet a.metadata fmt2 = some md2) := by
  subst hprocs
  refine ⟨applyMetadataProcessors mps file (p.read file),
    read_of_first_match hl1 hp, ?_, ?_⟩
  · have hall : ∀ q ∈ mps, q.1 = fmt → q.2 file.seek0 = none := by
      intro q hq hfmt
      have heq : q = (fmt, mp) := by
        refine List.inj_on_of_nodup_map hnd hq hmem ?_
        simpa using hfmt
      rw [heq]
      exact hfail
    rw [applyMeta_get_notset mps file _ fmt hall]
    exact hbase
  · intro fmt2 mp2 md2 hmem2 hmp2
    exact applyMeta_get_success mps file _ fmt2 mp2 md2 hnd hmem2 hmp2

/-- A metadata processor for the exif format that always raises. -/
def failingExif : MetadataEntry Nat := ("exif", fun _ => none)

/-- A metadata processor for the id3 format that extracts a mapping. -/
def succeedingId3 : MetadataEntry Nat := ("id3", fun _ => some [("k", 9)])

/-- Witness for C5: with one failing and one succeeding metadata
processor registered, read returns an asset missing the failing
namespace and carrying the successful one. -/
theorem read_metadata_failure_isolated_witness :
    ∃ a, read [acceptAll] [failingExif, succeedingId3] ⟨[7], 0⟩ = Except.ok a ∧
      dictGet a.metadata "exif" = none ∧
      (∀ fmt2 mp2 md2, (fmt2, mp2) ∈ [failingExif, succeedingId3] →
        mp2 (ByteStream.seek0 ⟨[7], 0⟩) = some md2 →
        dictGet a.metadata fmt2 = some md2) :=
  read_metadata_failure_isolated [acceptAll] [] [] acceptAll
    [failingExif, succeedingId3] ⟨[7], 0⟩ "exif" failingExif.2
    rfl (by intro q hq; cases hq) rfl (by decide)
    (List.mem_cons_self _ _) rfl rfl

/-! Section: C8 -/

/-- A dict representation has each key at most once; every association
list standing for a Python dict satisfies this. -/
abbrev NodupKeys {β : Type} (d : List (String × β)) : Prop :=
  (d.map Prod.fst).Nodup

/-- An asset is well formed when its metadata mapping and every inner
namespace mapping are dict representations (no duplicate keys). -/
abbrev Asset.WellFormed {V : Type} (a : Asset V) : Prop :=
  NodupKeys a.metadata ∧ ∀ kv ∈ a.metadata, NodupKeys kv.2

/-- Extensional equality of two optional inner dicts: both absent, or
both present and agreeing on every key lookup. -/
def innerDictEq {β : Type} (o1 o2 : Option (List (String × β))) : Prop :=
  match o1, o2 with
  | none, none => True
  | some d, some e => ∀ k, dictGet d k = dictGet e k
  | _, _ => False

theorem dictGet_eq_some_of_mem {β : Type} (d : List (String × β))
    (hnd : NodupKeys d) (kv : String × β) (h : kv ∈ d) :
    dictGet d kv.1 = some kv.2 := by
  induction d with
  | nil => cases h
  | cons e tl ih =>
    rw [NodupKeys, List.map_cons, List.nodup_cons] at hnd
    rcases List.mem_cons.mp h with h | h
    · subst h
      unfold dictGet
      rw [List.find?_cons_of_pos _ (by simp)]
      rfl
    · have hne : e.1 ≠ kv.1 := by
        intro hc
        exact hnd.1 (hc ▸ List.mem_map_of_mem Prod.fst h)
      unfold dictGet
      rw [List.find?_cons_of_neg _ (by simp [hne])]
      exact ih hnd.2 h

theorem mem_of_dictGet_some {β : Type} (d : List (String × β)) (k : String)
    (v : β) (h : dictGet d k = some v) : (k, v) ∈ d := by
  unfold dictGet at h
  cases hf : d.find? (fun kv => kv.1 == k) with
  | none => rw [hf] at h; cases h
  | some kv =>
    rw [hf] at h
    have hmem := List.mem_of_find?_eq_some hf
    have hkey : kv.1 = k := by simpa using List.find?_some hf
    have hval : kv.2 = v := by simpa using h
    have : kv = (k, v) := Prod.ext hkey hval
    exact this ▸ hmem

theorem pyDictEq_iff {β : Type} [DecidableEq β] (d e : List (String × β))
    (hd : NodupKeys d) (he : NodupKeys e) :
    pyDictEq d e = true ↔ ∀ k, dictGet d k = dictGet e k := by
  constructor
  · intro h k
    rw [pyDictEq, Bool.and_eq_true, List.all_eq_true, List.all_eq_true] at h
    cases hk : dictGet d k with
    | some v =>
      have hmem := mem_of_dictGet_some d k v hk
      have h1 : dictGet e k = some v := by simpa using h.1 (k, v) hmem
      exact h1.symm
    | none =>
      cases hk2 : dictGet e k with
      | none => rfl
      | some w =>
        have hmem := mem_of_dictGet_some e k w hk2
        have := h.2 (k, w) hmem
        simp only [beq_iff_eq] at this
        rw [this] at hk
        cases hk
  · intro h
    rw [pyDictEq, Bool.and_eq_true, List.all_eq_true, List.all_eq_true]
    constructor
    · intro kv hkv
      have := dictGet_eq_some_of_mem d hd kv hkv
      rw [h kv.1] at this
      simp [this]
    · intro kv hkv
      have := dictGet_eq_some_of_mem e he kv hkv
      rw [← h kv.1] at this
      simp [this]

theorem metadata_all_check_iff {V : Type} [DecidableEq V] (a b : Asset V)
    (ha : Asset.WellFormed a) (hb : Asset.WellFormed b) :
    ((a.metadata.all (fun kv => match dictGet b.metadata kv.1 with
        | some e => pyDictEq kv.2 e
        | none => false) &&
      b.metadata.all (fun kv => match dictGet a.metadata kv.1 with
        | some e => pyDictEq kv.2 e
        | none => false)) = true) ↔
      ∀ ns, innerDictEq (dictGet a.metadata ns) (dictGet b.metadata ns) := by
  rw [Bool.and_eq_true, List.all_eq_true, List.all_eq_true]
  constructor
  · intro h ns
    cases hga : dictGet a.metadata ns with
    | some d =>
      have hmem := mem_of_dictGet_some a.metadata ns d hga
      have h1 := h.1 (ns, d) hmem
      cases hgb : dictGet b.metadata ns with
      | none => rw [hgb] at h1; cases h1
      | some e =>
        rw [hgb] at h1
        simp only [innerDictEq]
        exact (pyDictEq_iff d e (ha.2 (ns, d) hmem)
          (hb.2 (ns, e) (mem_of_dictGet_some b.metadata ns e hgb))).mp h1
    | none =>
      cases hgb : dictGet b.metadata ns with
      | none => exact trivial
      | some e =>
        have hmem := mem_of_dictGet_some b.metadata ns e hgb
        have h2 := h.2 (ns, e) hmem
        rw [hga] at h2
        cases h2
  · intro h
    constructor
    · intro kv hkv
      have hga := dictGet_eq_some_of_mem a.metadata ha.1 kv hkv
      have hns := h kv.1
      rw [hga] at hns
      cases hgb : dictGet b.metadata kv.1 with
      | none => rw [hgb] at hns; cases hns
      | some e =>
        rw [hgb] at hns
        exact (pyDictEq_iff kv.2 e (ha.2 kv hkv)
          (hb.2 (kv.1, e) (mem_of_dictGet_some b.metadata kv.1 e hgb))).mpr hns
    · intro kv hkv
      have hgb := dictGet_eq_some_of_mem b.metadata hb.1 kv hkv
      have hns := h kv.1
      rw [hgb] at hns
      cases hga : dictGet a.metadata kv.1 with
      | none => rw [hga] at hns; cases hns
      | some e =>
        rw [hga] at hns
        refine (pyDictEq_iff kv.2 e (hb.2 kv hkv)
          (ha.2 (kv.1, e) (mem_of_dictGet_some a.metadata kv.1 e hga))).mpr ?_
        intro k
        exact (hns k).symm

/-- C8: Asset equality is value equality: two assets compare equal
exactly when their essence bytes, their metadata mappings (as Python
dicts, extensionally at both nesting levels) and their MIME types are
all equal; and an asset never compares equal to an object of any other
class. -/
theorem asset_eq_spec {V : Type} [DecidableEq V] (a b : Asset V) (tag : String)
    (ha : Asset.WellFormed a) (hb : Asset.WellFormed b) :
    (Asset.pyEq a (PyObject.asset b) = true ↔
      (a.essence_data = b.essence_data ∧
       (∀ ns, innerDictEq (dictGet a.metadata ns) (dictGet b.metadata ns)) ∧
       a.mime_type = b.mime_type)) ∧
    Asset.pyEq a (PyObject.nonAsset tag) = false := by
  refine ⟨?_, rfl⟩
  rw [Asset.pyEq, Asset.dictEq]
  rw [Bool.and_eq_true, Bool.and_eq_true]
  rw [metadata_all_check_iff a b ha hb]
  constructor
  · rintro ⟨⟨h1, h2⟩, h3⟩
    exact ⟨by simpa using h1, h2, by simpa using h3⟩
  · rintro ⟨h1, h2, h3⟩
    exact ⟨⟨by simpa using h1, h2⟩, by simpa using h3⟩

/-- A concrete well-formed asset for the C8 witness. -/
def assetW : Asset Nat :=
  { essence_data := [3, 4]
    metadata := [("madam", [("width", 5)]), ("exif", [("k", 9)])]
    mime_type := some "image/jpeg" }

/-- Witness for C8: the concrete asset equals itself under Python
equality and is never equal to a non-Asset object. -/
theorem asset_eq_spec_witness :
    Asset.pyEq assetW (PyObject.asset assetW) = true ∧
    Asset.pyEq assetW (PyObject.nonAsset "str") = false := by
  have h := asset_eq_spec assetW assetW "str" (by decide) (by decide)
  refine ⟨?_, h.2⟩
  exact h.1.mpr ⟨rfl, fun ns => by
    cases hg : dictGet assetW.metadata ns with
    | none => simp [innerDictEq, hg]
    | some d => simp [innerDictEq, hg], rfl⟩

/-! Section: C4 -/

theorem pyRound_le_int (q : ℚ) (n : ℤ) (h : q ≤ (n : ℚ)) : pyRound q ≤ n := by
  have hfl : ⌊q⌋ ≤ n := by
    have := Int.floor_le_floor h
    simpa using this
  unfold pyRound
  by_cases h1 : q - ⌊q⌋ < 1 / 2
  · rw [if_pos h1]
    exact hfl
  · have hlt : ⌊q⌋ < n := by
      by_contra hc
      push_neg at hc
      have hqn : (⌊q⌋ : ℚ) = (n : ℚ) := by exact_mod_cast le_antisymm hfl hc
      have hge : (1 : ℚ) / 2 ≤ q - ⌊q⌋ := not_lt.mp h1
      linarith
    rw [if_neg h1]
    split_ifs <;> omega

/-- The FIT branch of resizeDims in closed form: the chosen factor is
the width ratio exactly when the width delta is below the height delta. -/
theorem resizeDims_fit_formula (srcW srcH tgtW tgtH : ℤ) :
    resizeDims srcW srcH tgtW tgtH ResizeMode.FIT =
      (pyRound ((if tgtW - srcW < tgtH - srcH then (tgtW : ℚ) / (srcW : ℚ)
          else (tgtH : ℚ) / (srcH : ℚ)) * srcW),
       pyRound ((if tgtW - srcW < tgtH - srcH then (tgtW : ℚ) / (srcW : ℚ)
          else (tgtH : ℚ) / (srcH : ℚ)) * srcH)) := by
  rw [resizeDims]
  rw [if_pos (Or.inl rfl)]
  by_cases hc : tgtW - srcW < tgtH - srcH
  · have hcond : ((ResizeMode.FIT = ResizeMode.FIT ∧ tgtW - srcW < tgtH - srcH) ∨
        (ResizeMode.FIT = ResizeMode.FILL ∧ tgtW - srcW > tgtH - srcH)) :=
      Or.inl ⟨rfl, hc⟩
    rw [if_pos hcond, if_pos hc]
  · have hcond : ¬ ((ResizeMode.FIT = ResizeMode.FIT ∧ tgtW - srcW < tgtH - srcH) ∨
        (ResizeMode.FIT = ResizeMode.FILL ∧ tgtW - srcW > tgtH - srcH)) := by
      rintro (⟨-, hlt⟩ | ⟨hfill, -⟩)
      · exact hc hlt
      · cases hfill
    rw [if_neg hcond, if_neg hc]

/-- C4 (amended): for positive source dimensions, FIT chooses the width
ratio exactly when width-delta < height-delta (delta = target − source
per axis) — a rule that does not always coincide with taking the smaller
of the two ratios — and the result dimensions are the source dimensions
scaled by the chosen factor and rounded half-to-even; whenever the
delta rule does select a factor no larger than either ratio, the result
fits entirely within the target box. -/
theorem resize_fit_delta_rule (srcW srcH tgtW tgtH : ℤ) (f : ℚ)
    (hW : 0 < srcW) (hH : 0 < srcH)
    (hf : f = if tgtW - srcW < tgtH - srcH then (tgtW : ℚ) / (srcW : ℚ)
              else (tgtH : ℚ) / (srcH : ℚ)) :
    resizeDims srcW srcH tgtW tgtH ResizeMode.FIT =
      (pyRound (f * srcW), pyRound (f * srcH)) ∧
    (f ≤ (tgtW : ℚ) / (srcW : ℚ) → f ≤ (tgtH : ℚ) / (srcH : ℚ) →
      pyRound (f * srcW) ≤ tgtW ∧ pyRound (f * srcH) ≤ tgtH) := by
  constructor
  · rw [resizeDims_fit_formula, hf]
  · intro hw hh
    have hsW : (0 : ℚ) < (srcW : ℚ) := by exact_mod_cast hW
    have hsH : (0 : ℚ) < (srcH : ℚ) := by exact_mod_cast hH
    constructor
    · refine pyRound_le_int _ _ ?_
      have := mul_le_mul_of_nonneg_right hw (le_of_lt hsW)
      rwa [div_mul_cancel₀ _ (ne_of_gt hsW)] at this
    · refine pyRound_le_int _ _ ?_
      have := mul_le_mul_of_nonneg_right hh (le_of_lt hsH)
      rwa [div_mul_cancel₀ _ (ne_of_gt hsH)] at this

/-- Counterexample to C4 as stated: source 3×10, target 1×6. The code
compares deltas (−2 against −4), picks the height ratio 6/10 although
the width ratio 1/3 is smaller, and produces 2×6, which exceeds the
target width 1 — the result does not fit within the target box, and the
chosen factor is not the smaller of the two ratios (which would give
1×3). -/
theorem resize_fit_counterexample :
    resizeDims 3 10 1 6 ResizeMode.FIT = (2, 6) ∧
    ¬ (resizeDims 3 10 1 6 ResizeMode.FIT).1 ≤ 1 ∧
    min ((1 : ℚ) / 3) ((6 : ℚ) / 10) = 1 / 3 ∧
    (pyRound ((1 / 3 : ℚ) * 3), pyRound ((1 / 3 : ℚ) * 10)) = (1, 3) := by
  have hfit : resizeDims 3 10 1 6 ResizeMode.FIT = (2, 6) := by
    rw [resizeDims_fit_formula]
    norm_num [pyRound]
  refine ⟨hfit, by rw [hfit]; norm_num, by norm_num, by norm_num [pyRound]⟩

/-- Witness for C4 (amended): the spec's own example, source 100×50 and
target 60×60, where the delta rule picks the width ratio 3/5, the result
is 60×30, and it fits in the box. -/
theorem resize_fit_delta_rule_witness :
    resizeDims 100 50 60 60 ResizeMode.FIT =
      (pyRound ((3 / 5 : ℚ) * 100), pyRound ((3 / 5 : ℚ) * 50)) ∧
    pyRound ((3 / 5 : ℚ) * 100) ≤ 60 ∧ pyRound ((3 / 5 : ℚ) * 50) ≤ 60 := by
  have h := resize_fit_delta_rule 100 50 60 60 (3 / 5)
    (by norm_num) (by norm_num) (by norm_num)
  have h2 := h.2 (by norm_num) (by norm_num)
  exact ⟨h.1, h2.1, h2.2⟩

end Madam
